import Mathlib

/-!
Verification development for the SpECTRE DG-subcell hybrid solver spec.

The `Variables` data structure is embedded from the source
(`Variables::initialize` and `Variables::set_data_ref`).  The DgSubcell
core (projection/reconstruction operators, troubled-cell indicators,
active-grid state machine, ghost-data exchange, RDMP data) is declared in
the repository's build files but its implementation files are not part of
the source tree available here, so those components are modelled from the
spec; each such definition carries a doc comment saying so.

Fields on a one-dimensional element are modelled as polynomials on the
reference interval [0, 1], represented by their coefficient lists
(little-endian, over `ℚ` for exact arithmetic).
-/

/-! ## Polynomial coefficient lists -/

/-- Evaluate a coefficient list (little-endian) at a point, Horner style. -/
def evalPoly (p : List ℚ) (x : ℚ) : ℚ :=
  p.foldr (fun c acc => c + x * acc) 0

/-- Pointwise sum of two coefficient lists (length = max of the lengths). -/
def addPoly : List ℚ → List ℚ → List ℚ
  | [], q => q
  | p, [] => p
  | a :: p, b :: q => (a + b) :: addPoly p q

/-- Scale every coefficient. -/
def scalePoly (c : ℚ) (p : List ℚ) : List ℚ := p.map (fun a => c * a)

/-- Product of two coefficient lists. -/
def mulPoly : List ℚ → List ℚ → List ℚ
  | [], _ => []
  | a :: p, q => addPoly (scalePoly a q) ((0 : ℚ) :: mulPoly p q)

/-- Helper for the antiderivative: divides coefficient `c_j` by `j + 1`,
with `j` tracking the monomial degree. -/
def antiderivAux : ℕ → List ℚ → List ℚ
  | _, [] => []
  | j, c :: rest => c / (j + 1) :: antiderivAux (j + 1) rest

/-- Antiderivative with zero constant term. -/
def antiderivPoly (p : List ℚ) : List ℚ := 0 :: antiderivAux 0 p

/-- Helper for the derivative: multiplies coefficient `c_{j+1}` by `j + 1`. -/
def derivAux : ℕ → List ℚ → List ℚ
  | _, [] => []
  | j, c :: rest => (j + 1) * c :: derivAux (j + 1) rest

/-- Formal derivative of a coefficient list. -/
def derivPoly : List ℚ → List ℚ
  | [] => []
  | _ :: rest => derivAux 0 rest

/-- Semantic bridge from coefficient lists to Mathlib polynomials (proof
infrastructure only; the executable operations above are the model). -/
noncomputable def toPoly : List ℚ → Polynomial ℚ
  | [] => 0
  | c :: rest => Polynomial.C c + Polynomial.X * toPoly rest

/-! ## The `Variables` contiguous-buffer class (embedded from the source)

`Variables` owns (or views) one contiguous buffer holding all field
components on a grid.  The embedding keeps the mutable fields of the C++
class: the owning flag, whether the dynamically allocated backing store is
live, the total size, the number of grid points, and the observable
contents of the data view.  The number of independent components is a
compile-time constant of the tag list, passed here as the parameter
`nic`. -/

/-- State of a `Variables` object: owning flag, whether
`variable_data_impl_dynamic_` holds an allocation, `size_`,
`number_of_grid_points_`, and the observable contents of the
`variable_data_` view. -/
structure Variables where
  owning : Bool
  dynAlloc : Bool
  size : ℕ
  num_grid_points : ℕ
  data : List ℚ
deriving Repr, DecidableEq

/-- Fatal-error outcomes of `Variables` member calls (`ERROR` aborts the
run; a failed `ASSERT` aborts a debug build). -/
inductive VarError where
  | nonOwningResize
  | sizeNotMultipleOfComponents
deriving Repr, DecidableEq

/-- Embeds `Variables::initialize(size_t number_of_grid_points)`: if the
current number of grid points is zero the stale dynamic buffer is freed;
a call with the current number of grid points returns with no further
work; resizing a non-owning `Variables` is a fatal `ERROR`; otherwise the
buffer is reallocated (the one-grid-point case uses the static buffer,
i.e. no dynamic allocation). -/
def Variables.init_grid_points (nic : ℕ) (v : Variables) (n : ℕ) :
    Except VarError Variables :=
  let v1 := if v.num_grid_points = 0 then
    { v with dynAlloc := false, size := 0, num_grid_points := 0 } else v
  if v1.num_grid_points = n then .ok v1
  else if v1.owning = false then .error .nonOwningResize
  else
    let sz := n * nic
    if 0 < sz then
      .ok { v1 with num_grid_points := n, size := sz,
                    dynAlloc := decide (n ≠ 1),
                    data := List.replicate sz 0 }
    else
      .ok { v1 with num_grid_points := n, size := sz }

/-- Embeds `Variables::set_data_ref(pointer start, size_t size)`: the
dynamic buffer is released, a null start yields an empty view, otherwise
the view is set over the external buffer, with a debug `ASSERT` that the
size is a multiple of the number of independent components; the result is
always non-owning.  The external buffer is passed as `Option` (null =
`none`). -/
def Variables.set_data_ref (nic : ℕ) (v : Variables)
    (start : Option (List ℚ)) (size : ℕ) : Except VarError Variables :=
  let v1 := { v with dynAlloc := false }
  match start with
  | none => .ok { v1 with data := [], size := 0, num_grid_points := 0,
                          owning := false }
  | some buf =>
    if size % nic = 0 then
      .ok { v1 with size := size, data := buf.take size,
                    num_grid_points := size / nic, owning := false }
    else .error .sizeNotMultipleOfComponents

/-! ## Active-grid state machine (modelled from the spec)

The implementation files (`ActiveGrid.cpp`, the TCI actions and the
`FdToDgTci` option group) are declared in the repository's build files
but absent from the available source tree. -/

/-- Modelled from the spec: the per-element active-grid tag
(`ActiveGrid.hpp` is missing from the available sources); exactly one of
`Dg` or `Subcell` is active at any committed time. -/
inductive ActiveGrid where
  | Dg
  | Subcell
deriving Repr, DecidableEq

/-- Modelled from the spec: per-element state of the active-grid state
machine (`ActiveGrid.cpp` and the TCI actions are missing from the
available sources): the active grid plus the count of consecutive
not-troubled steps since the element switched to (or last re-confirmed)
`Subcell`. -/
structure GridState where
  grid : ActiveGrid
  clearStreak : ℕ
deriving Repr, DecidableEq

/-- Modelled from the spec: one per-step transition of the active-grid
state machine with hysteresis window `N` (the `MinimumClearTcis` option of
`FdToDgTci`, whose implementation is missing from the available sources).
A troubled `Dg` element switches to `Subcell`; a `Subcell` element returns
to `Dg` only after `N` consecutive not-troubled steps. -/
def tciStep (N : ℕ) (s : GridState) (troubled : Bool) : GridState :=
  match s.grid, troubled with
  | .Dg, true => ⟨.Subcell, 0⟩
  | .Dg, false => s
  | .Subcell, true => ⟨.Subcell, 0⟩
  | .Subcell, false =>
    if N ≤ s.clearStreak + 1 then ⟨.Dg, 0⟩
    else ⟨.Subcell, s.clearStreak + 1⟩

/-- Run the state machine over a list of per-step troubled decisions. -/
def tciRun (N : ℕ) (s : GridState) (l : List Bool) : GridState :=
  l.foldl (tciStep N) s

/-- Does the list start with at least `n` not-troubled (`false`) steps? -/
def startsWithClears : ℕ → List Bool → Bool
  | 0, _ => true
  | _ + 1, [] => false
  | n + 1, b :: rest => !b && startsWithClears n rest

/-- Does the list contain a run of `n` consecutive not-troubled steps? -/
def hasClearRun (n : ℕ) : List Bool → Bool
  | [] => startsWithClears n []
  | b :: rest => startsWithClears n (b :: rest) || hasClearRun n rest

/-! ## Projection operators (modelled from the spec)

`Projection.cpp` and `Matrices.cpp` of the DgSubcell library are declared
in the repository's build files but absent from the available source tree.
Fields are polynomials on the reference interval [0, 1] given by their
coefficient lists; the DG basis of a mesh with `n` points spans the
polynomials of degree below `n`. -/

/-- Modelled from the spec: the fixed points-per-dimension relationship
between a DG mesh with `n` points and its paired uniform subcell (FD)
grid (`Mesh.cpp` of the DgSubcell library is missing from the available
sources): `2 * n - 1` subcells. -/
def subcellMeshSize (n : ℕ) : ℕ := 2 * n - 1

/-- Average of the field `f` over subcell `i` of `M` uniform cells of the
reference interval, computed exactly from the antiderivative. -/
def cellAvg (f : List ℚ) (M i : ℕ) : ℚ :=
  (M : ℚ) * (evalPoly (antiderivPoly f) (((i : ℚ) + 1) / (M : ℚ)) -
    evalPoly (antiderivPoly f) ((i : ℚ) / (M : ℚ)))

/-- Modelled from the spec: the DG-to-FD-average projection
(`Projection.cpp` is missing from the available sources) — the
volume-integral-preserving linear map taking a DG field to its cell
averages on the `M`-cell subcell grid. -/
def project_to_subcell (f : List ℚ) (M : ℕ) : List ℚ :=
  (List.range M).map (fun i => cellAvg f M i)

/-- Integral of a DG field over the element, from the DG basis. -/
def dgIntegral (f : List ℚ) : ℚ :=
  evalPoly (antiderivPoly f) 1 - evalPoly (antiderivPoly f) 0

/-- Cell-averaged integral of subcell data: each of the cells has width
one over the number of cells. -/
def fdIntegral (avgs : List ℚ) : ℚ := avgs.sum / (avgs.length : ℚ)

/-! ## Lagrange interpolation on coefficient lists -/

/-- The monic polynomial with the given roots: the product of the
factors `X - xj`. -/
def lagNum (others : List ℚ) : List ℚ :=
  others.foldr (fun xj acc => mulPoly [-xj, 1] acc) [1]

/-- The scalar `∏ (x - xj)` normalizing a Lagrange cardinal polynomial. -/
def lagDen (x : ℚ) (others : List ℚ) : ℚ :=
  (others.map (fun xj => x - xj)).prod

/-- Interpolation worker: `done` holds the nodes already consumed; each
remaining point contributes its value times the cardinal polynomial that
is 1 at its node and vanishes at every other node. -/
def interpAux : List ℚ → List (ℚ × ℚ) → List ℚ
  | _, [] => []
  | done, (x, y) :: rest =>
    addPoly (scalePoly (y / lagDen x (done ++ rest.map Prod.fst))
        (lagNum (done ++ rest.map Prod.fst)))
      (interpAux (done ++ [x]) rest)

/-- The Lagrange interpolation polynomial through the given
(node, value) points, as a coefficient list. -/
def interpPoly (pts : List (ℚ × ℚ)) : List ℚ := interpAux [] pts

/-- Modelled from the spec: the FD-to-DG reconstruction
(`Reconstruction.cpp` is missing from the available sources).  Exact
prefix sums of the cell averages give the antiderivative of the field at
the subcell boundaries; the unique polynomial interpolating those values
at the first `N + 1` boundaries is differentiated to recover the DG
field of a mesh with `N` points. -/
def reconstruct_to_dg (N : ℕ) (avgs : List ℚ) : List ℚ :=
  derivPoly (interpPoly ((List.range (N + 1)).map
    (fun k : ℕ => ((k : ℚ) / (avgs.length : ℚ),
      (avgs.take k).sum / (avgs.length : ℚ)))))

/-! ## Troubled-cell indicators (modelled from the spec)

`PerssonTci.cpp`, `RdmpTci.cpp` and the combined TCI mutators are
declared in the repository's build files but absent from the available
source tree. -/

/-- Modelled from the spec: the nodal-to-modal transform used by the
Persson indicator (the spectral machinery behind `PerssonTci.cpp` is
missing from the available sources): the coefficients of the unique
polynomial interpolating the nodal values at the element's uniformly
spaced nodes. -/
def toModal (u : List ℚ) : List ℚ :=
  interpPoly ((List.range u.length).map
    (fun k : ℕ => ((k : ℚ) / ((u.length - 1 : ℕ) : ℚ), u.getD k 0)))

/-- Spectral (modal) energy of a coefficient list. -/
def energyOf (coeffs : List ℚ) : ℚ := (coeffs.map (fun c => c ^ 2)).sum

/-- Modelled from the spec: the Persson indicator (`PerssonTci.cpp` is
missing from the available sources): flags troubled when the fraction of
the field's modal energy held by the `numHighestModes` highest modes
exceeds the configured threshold; a uniformly zero field is not flagged
and causes no division. -/
def perssonTci (threshold : ℚ) (numHighestModes : ℕ) (u : List ℚ) : Bool :=
  let m := toModal u
  decide (threshold * energyOf m <
    energyOf (m.drop (m.length - numHighestModes)))

/-- A monitored input value: finite (kept exactly) or non-finite
(NaN or an infinity). -/
inductive FpVal where
  | finite (q : ℚ)
  | nan
  | posInf
  | negInf
deriving Repr, DecidableEq

/-- Whether the value is finite. -/
def FpVal.isFiniteVal : FpVal → Bool
  | .finite _ => true
  | _ => false

/-- The finite payload (0 for non-finite values; only used after the
finiteness guard). -/
def FpVal.toRat : FpVal → ℚ
  | .finite q => q
  | _ => 0

/-! ## RDMP data (modelled from the spec)

`RdmpTciData.cpp` and `RdmpTci.cpp` are declared in the repository's
build files but absent from the available source tree. -/

/-- Per-step observed extrema of the monitored quantities, one entry per
quantity. -/
structure RdmpBounds where
  maxVals : List ℚ
  minVals : List ℚ
deriving Repr, DecidableEq

/-- Modelled from the spec: per-element rolling min/max bounds of the
monitored quantities from the current and the previous time step
(`RdmpTciData.cpp` is missing from the available sources) — a 2-deep
ring, not unbounded accumulation. -/
structure RdmpTciData where
  cur : RdmpBounds
  prev : RdmpBounds
deriving Repr, DecidableEq

/-- Modelled from the spec: `update(current_bounds)` folds the newly
observed extrema into the rolling window, keeping only the current-step
and previous-step bounds. -/
def rdmpUpdate (s : RdmpTciData) (b : RdmpBounds) : RdmpTciData :=
  { cur := b, prev := s.cur }

/-- The per-quantity maxima the rolling window currently stores. -/
def rdmpStoredMax (s : RdmpTciData) : List ℚ :=
  List.zipWith max s.cur.maxVals s.prev.maxVals

/-- The per-quantity minima the rolling window currently stores. -/
def rdmpStoredMin (s : RdmpTciData) : List ℚ :=
  List.zipWith min s.cur.minVals s.prev.minVals

/-- Modelled from the spec: `check(candidate_bounds, delta0, epsilon)`
compares candidate extrema against the stored bounds expanded by the
absolute tolerance `delta0` plus the relative tolerance `epsilon` times
the bound spread, and returns pass/fail together with the (unchanged)
state, mirroring the const method. -/
def rdmpCheck (s : RdmpTciData) (candidate : RdmpBounds)
    (delta0 epsilon : ℚ) : Bool × RdmpTciData :=
  let mx := rdmpStoredMax s
  let mn := rdmpStoredMin s
  let tol := List.zipWith (fun a b => delta0 + epsilon * (a - b)) mx mn
  let passMax := (List.zipWith (fun c t => decide (c ≤ t))
    candidate.maxVals (List.zipWith (· + ·) mx tol)).all id
  let passMin := (List.zipWith (fun t c => decide (t ≤ c))
    (List.zipWith (· - ·) mn tol) candidate.minVals).all id
  (passMax && passMin, s)

/-- Modelled from the spec: the combined troubled-cell decision (the TCI
mutators invoked from the subcell actions are missing from the available
sources).  Non-finite monitored input conservatively reports troubled
instead of crashing; finite input runs the enabled indicators (the
Persson indicator and the RDMP check) and never throws. -/
def troubledCellIndicator (threshold : ℚ) (numHighestModes : ℕ)
    (s : RdmpTciData) (candidate : RdmpBounds) (delta0 epsilon : ℚ)
    (data : List FpVal) : Except String Bool :=
  if data.any (fun v => ! v.isFiniteVal) then .ok true
  else
    .ok (perssonTci threshold numHighestModes (data.map FpVal.toRat) ||
      ! (rdmpCheck s candidate delta0 epsilon).1)

/-! ## Ghost-data exchange (modelled from the spec)

`GhostData.cpp`, `PrepareNeighborData.hpp`, `SliceData.cpp` and the
interpolation setup are declared in the repository's build files but
absent from the available source tree. -/

/-- Representation tag a ghost buffer can carry. -/
inductive GhostRep where
  | SubcellAvg
  | DgNodal
deriving Repr, DecidableEq

/-- Modelled from the spec: the per-element data a sender packs from —
its active grid, refinement level, DG field (polynomial coefficients,
canonical when on `Dg`) and subcell cell averages (canonical when on
`Subcell`). -/
structure ElementData where
  grid : ActiveGrid
  level : ℕ
  dgField : List ℚ
  subcellField : List ℚ
deriving Repr, DecidableEq

/-- A packed ghost buffer: representation, sender's refinement level and
active-grid state, and the sliced halo values. -/
structure GhostPacket where
  rep : GhostRep
  level : ℕ
  senderGrid : ActiveGrid
  halo : List ℚ
deriving Repr, DecidableEq

/-- Modelled from the spec: slicing the boundary layer of width `w` from
subcell data (`SliceData.cpp` is missing from the available sources; the
upper-side halo is taken). -/
def sliceHalo (w : ℕ) (data : List ℚ) : List ℚ :=
  data.drop (data.length - w)

/-- The element's data in the Subcell/FD cell-average representation: a
`Dg`-mode element is first projected, a `Subcell`-mode element already
stores it. -/
def elementSubcellView (M : ℕ) (e : ElementData) : List ℚ :=
  match e.grid with
  | .Dg => project_to_subcell e.dgField M
  | .Subcell => e.subcellField

/-- Modelled from the spec: the ghost-data pack operation
(`GhostData.cpp` and `PrepareNeighborData.hpp` are missing from the
available sources): the sender slices a halo of width `w` from its data
in the Subcell/FD cell-average representation — projecting first when in
`Dg` mode — and tags it with its refinement level and active-grid
state. -/
def packGhostData (M w : ℕ) (e : ElementData) : GhostPacket :=
  { rep := .SubcellAvg, level := e.level, senderGrid := e.grid,
    halo := sliceHalo w (elementSubcellView M e) }

/-- The receiver's stored view of one neighbor: refinement level and
orientation (modelled as a flip flag). -/
structure NeighborInfo where
  level : ℕ
  orientFlipped : Bool
deriving Repr, DecidableEq

/-- An incoming ghost buffer with its sender metadata. -/
structure IncomingGhost where
  level : ℕ
  orientFlipped : Bool
  data : List ℚ
deriving Repr, DecidableEq

/-- Modelled from the spec: interpolation/restriction of a ghost buffer
to `w` cells at the receiver's resolution (the interpolators configured
by `SetInterpolators.hpp` are missing from the available sources);
modelled as index-proportional sampling, which restricts or refines to
exactly `w` cells. -/
def resampleGhost (w : ℕ) (data : List ℚ) : List ℚ :=
  (List.range w).map (fun i => data.getD (i * data.length / w) 0)

/-- Modelled from the spec: the ghost-data unpack operation
(`GhostData.cpp` and `NeighborRdmpAndVolumeData.cpp` are missing from the
available sources): metadata inconsistent with the receiver's view of the
neighbor topology is a fatal configuration error; consistent data from a
neighbor at a different refinement level is interpolated/restricted to
the receiver's resolution during unpack. -/
def unpackGhostData (nbr : NeighborInfo) (myLevel w : ℕ)
    (g : IncomingGhost) : Except String (List ℚ) :=
  if g.level = nbr.level ∧ g.orientFlipped = nbr.orientFlipped then
    .ok (if g.level = myLevel then g.data else resampleGhost w g.data)
  else .error "ghost metadata inconsistent with neighbor topology"

/-! ## Theorems -/

theorem sum_map_range (g : ℕ → ℚ) (n : ℕ) :
    ((List.range n).map g).sum = ∑ i ∈ Finset.range n, g i := by
  induction n with
  | zero => simp
  | succ k ih =>
    rw [List.range_succ, List.map_append, List.sum_append,
      Finset.sum_range_succ, ih]
    simp

theorem project_conserves_integral (f : List ℚ) (M : ℕ) (hM : 0 < M) :
    fdIntegral (project_to_subcell f M) = dgIntegral f := by
  have hMQ : (M : ℚ) ≠ 0 := Nat.cast_ne_zero.mpr hM.ne'
  unfold fdIntegral project_to_subcell dgIntegral
  rw [List.length_map, List.length_range, sum_map_range]
  have hteles : ∑ i ∈ Finset.range M,
      (evalPoly (antiderivPoly f) (((i : ℚ) + 1) / (M : ℚ)) -
        evalPoly (antiderivPoly f) ((i : ℚ) / (M : ℚ))) =
      evalPoly (antiderivPoly f) ((M : ℚ) / (M : ℚ)) -
        evalPoly (antiderivPoly f) ((0 : ℚ) / (M : ℚ)) := by
    have h := Finset.sum_range_sub
      (fun j : ℕ => evalPoly (antiderivPoly f) ((j : ℚ) / (M : ℚ))) M
    simpa using h
  have hsum : ∑ i ∈ Finset.range M, cellAvg f M i =
      (M : ℚ) * (evalPoly (antiderivPoly f) 1 - evalPoly (antiderivPoly f) 0) := by
    unfold cellAvg
    rw [← Finset.mul_sum, hteles]
    simp [div_self hMQ]
  rw [hsum]
  field_simp

/-- C9: a call of `initialize` with the current number of grid points is a
no-op on size, ownership, data and grid-point count; calling it on a
non-owning `Variables` with a different number of grid points is a fatal
error.  The hypothesis `hv` is the class invariant relating `size_` to
`number_of_grid_points_`. -/
theorem variables_init_noop_or_fatal (nic : ℕ) (v : Variables) (n : ℕ)
    (hv : v.size = v.num_grid_points * nic) :
    (v.num_grid_points = n →
      ∃ v', Variables.init_grid_points nic v n = .ok v' ∧
        v'.size = v.size ∧ v'.owning = v.owning ∧
        v'.data = v.data ∧ v'.num_grid_points = v.num_grid_points) ∧
    (v.owning = false → v.num_grid_points ≠ n →
      Variables.init_grid_points nic v n = .error .nonOwningResize) := by
  constructor
  · intro hn
    subst hn
    unfold Variables.init_grid_points
    by_cases h0 : v.num_grid_points = 0
    · refine ⟨{ v with dynAlloc := false, size := 0, num_grid_points := 0 }, ?_⟩
      simp [h0, hv]
    · exact ⟨v, by simp [h0]⟩
  · intro how hne
    unfold Variables.init_grid_points
    by_cases h0 : v.num_grid_points = 0
    · simp only [h0, if_true]
      have : ¬ (0 = n) := by
        intro h; exact hne (h0.trans h)
      simp [this, how]
    · simp [h0, hne, how]

/-- Witness for C9 at a concrete owning and a concrete non-owning
`Variables`. -/
theorem variables_init_noop_or_fatal_witness :
    (∃ v', Variables.init_grid_points 2
        ⟨true, true, 6, 3, List.replicate 6 0⟩ 3 = .ok v' ∧
        v'.size = 6 ∧ v'.owning = true ∧
        v'.data = List.replicate 6 0 ∧ v'.num_grid_points = 3) ∧
    Variables.init_grid_points 2
        ⟨false, false, 6, 3, List.replicate 6 0⟩ 4 =
      .error .nonOwningResize := by
  constructor
  · exact (variables_init_noop_or_fatal 2
      ⟨true, true, 6, 3, List.replicate 6 0⟩ 3 (by decide)).1 rfl
  · exact (variables_init_noop_or_fatal 2
      ⟨false, false, 6, 3, List.replicate 6 0⟩ 4 (by decide)).2 rfl
      (by decide)

/-- C10: after `set_data_ref` the `Variables` is non-owning; a null start
pointer yields size 0 and 0 grid points; otherwise, under the asserted
precondition that the size is a multiple of the number of independent
components, the number of grid points is `size / nic` and the stored size
is the given size. -/
theorem variables_set_data_ref_spec (nic : ℕ) (v : Variables)
    (buf : List ℚ) (size : ℕ) :
    (∃ v', Variables.set_data_ref nic v none size = .ok v' ∧
      v'.owning = false ∧ v'.size = 0 ∧ v'.num_grid_points = 0) ∧
    (size % nic = 0 →
      ∃ v', Variables.set_data_ref nic v (some buf) size = .ok v' ∧
        v'.owning = false ∧ v'.size = size ∧
        v'.num_grid_points = size / nic) := by
  constructor
  · exact ⟨_, rfl, rfl, rfl, rfl⟩
  · intro hmod
    unfold Variables.set_data_ref
    simp only [hmod, if_true]
    exact ⟨_, rfl, rfl, rfl, rfl⟩

/-- Witness for C10 at a concrete buffer. -/
theorem variables_set_data_ref_spec_witness :
    ∃ v', Variables.set_data_ref 3
        ⟨true, true, 6, 2, List.replicate 6 0⟩ (some (List.replicate 9 1)) 9 =
        .ok v' ∧
      v'.owning = false ∧ v'.size = 9 ∧ v'.num_grid_points = 3 := by
  exact (variables_set_data_ref_spec 3
    ⟨true, true, 6, 2, List.replicate 6 0⟩ (List.replicate 9 1) 9).2
    (by decide)

theorem startsWithClears_replicate_append (n : ℕ) (l : List Bool) :
    startsWithClears n (List.replicate n false ++ l) = true := by
  induction n with
  | zero => rfl
  | succ k ih => simpa [startsWithClears] using ih

theorem hasClearRun_of_startsWith {n : ℕ} {l : List Bool}
    (h : startsWithClears n l = true) (hn : 0 < n) : hasClearRun n l = true := by
  cases l with
  | nil => cases n with
    | zero => exact absurd hn (by omega)
    | succ k => simp [startsWithClears] at h
  | cons b rest => simp [hasClearRun, h]

theorem hasClearRun_suffix {n : ℕ} {a l : List Bool}
    (h : hasClearRun n (a ++ l) = false) : hasClearRun n l = false := by
  induction a with
  | nil => exact h
  | cons b rest ih =>
    apply ih
    simp only [List.cons_append, hasClearRun, Bool.or_eq_false_iff] at h
    exact h.2

/-- Key invariant: from `Subcell` with `s` accumulated clear steps, if the
inputs preceded by `s` virtual clear steps contain no run of `N`
consecutive clears, the element stays on `Subcell`. -/
theorem tciRun_stays_subcell (N : ℕ) (hN : 0 < N) :
    ∀ (l : List Bool) (s : ℕ),
      hasClearRun N (List.replicate s false ++ l) = false →
      (tciRun N ⟨.Subcell, s⟩ l).grid = .Subcell := by
  intro l
  induction l with
  | nil => intro s _; rfl
  | cons b rest ih =>
    intro s hrun
    cases b with
    | true =>
      have hrest : hasClearRun N rest = false := by
        have := hasClearRun_suffix (a := List.replicate s false ++ [true])
          (l := rest) (by simpa using hrun)
        exact this
      have : tciRun N ⟨.Subcell, s⟩ (true :: rest) =
          tciRun N ⟨.Subcell, 0⟩ rest := rfl
      rw [this]
      have h0 := ih 0 (by simpa using hrest)
      exact h0
    | false =>
      have hswitch : ¬ N ≤ s + 1 := by
        intro hle
        have hstart : startsWithClears N
            (List.replicate s false ++ false :: rest) = true := by
          have hdecomp : List.replicate s false ++ false :: rest =
              List.replicate (s + 1) false ++ rest := by
            simp [List.replicate_succ']
          rw [hdecomp]
          obtain ⟨k, hk⟩ : ∃ k, s + 1 = N + k := ⟨s + 1 - N, by omega⟩
          rw [hk, List.replicate_add, List.append_assoc]
          exact startsWithClears_replicate_append N _
        have htrue := hasClearRun_of_startsWith hstart hN
        rw [htrue] at hrun
        exact Bool.noConfusion hrun
      have hstep : tciRun N ⟨.Subcell, s⟩ (false :: rest) =
          tciRun N ⟨.Subcell, s + 1⟩ rest := by
        simp [tciRun, tciStep, hswitch]
      rw [hstep]
      apply ih (s + 1)
      have hdecomp : List.replicate s false ++ false :: rest =
          List.replicate (s + 1) false ++ rest := by
        simp [List.replicate_succ']
      rw [← hdecomp]
      exact hrun

/-- C4: with hysteresis window `N`, an element in `Subcell` (with no
accumulated clear steps) never returns to `Dg` over a sequence of
troubled-cell decisions that contains no run of `N` consecutive
not-troubled steps; in particular `N - 1` clears followed by a troubled
step leaves it on `Subcell`. -/
theorem subcell_hysteresis (N : ℕ) (l : List Bool) (hN : 0 < N)
    (hrun : hasClearRun N l = false) :
    (tciRun N ⟨.Subcell, 0⟩ l).grid = .Subcell := by
  have := tciRun_stays_subcell N hN l 0 (by simpa using hrun)
  exact this

/-- Witness for C4: hysteresis window 3, untroubled for 2 steps then
troubled again — the element stays on `Subcell`. -/
theorem subcell_hysteresis_witness :
    (tciRun 3 ⟨.Subcell, 0⟩ [false, false, true]).grid = .Subcell :=
  subcell_hysteresis 3 [false, false, true] (by decide) (by decide)

/-- C2: the cell-averaged integral of `project_to_subcell f` over the
element equals the DG-basis integral of `f`, exactly, for every supported
mesh size from 2 to 12 points per dimension. -/
theorem project_to_subcell_conservation (f : List ℚ) (n : ℕ)
    (h2 : 2 ≤ n) (h12 : n ≤ 12) :
    fdIntegral (project_to_subcell f (subcellMeshSize n)) = dgIntegral f := by
  apply project_conserves_integral
  unfold subcellMeshSize
  omega

/-- Witness for C2 at a concrete quadratic field on the 5-point mesh. -/
theorem project_to_subcell_conservation_witness :
    fdIntegral (project_to_subcell [1, 2, 3] (subcellMeshSize 5)) =
      dgIntegral [1, 2, 3] :=
  project_to_subcell_conservation [1, 2, 3] 5 (by decide) (by decide)

theorem getD_zipWith_max_le (l1 l2 : List ℚ) (i : ℕ) :
    (List.zipWith max l1 l2).getD i 0 ≤ max (l1.getD i 0) (l2.getD i 0) := by
  induction l1 generalizing l2 i with
  | nil => simp
  | cons a l1 ih =>
    cases l2 with
    | nil => simp
    | cons b l2 =>
      cases i with
      | zero => simp [List.getD]
      | succ k => simpa using ih l2 k

theorem min_le_getD_zipWith (l1 l2 : List ℚ) (i : ℕ) :
    min (l1.getD i 0) (l2.getD i 0) ≤ (List.zipWith min l1 l2).getD i 0 := by
  induction l1 generalizing l2 i with
  | nil => simp
  | cons a l1 ih =>
    cases l2 with
    | nil => simp
    | cons b l2 =>
      cases i with
      | zero => simp [List.getD]
      | succ k => simpa using ih l2 k

/-- C8: the RDMP rolling window is a 2-deep ring — after two updates the
state does not depend on what was stored before them; after an update the
stored bounds are never wider than the union of the two most recent
observed bounds; and `check` returns its pass/fail verdict without
mutating the state. -/
theorem rdmp_two_deep_ring_and_pure_check (s s' : RdmpTciData)
    (b1 b2 c : RdmpBounds) (d e : ℚ) (i : ℕ) :
    rdmpUpdate (rdmpUpdate s b1) b2 = rdmpUpdate (rdmpUpdate s' b1) b2 ∧
    (rdmpStoredMax (rdmpUpdate s b1)).getD i 0 ≤
      max (b1.maxVals.getD i 0) (s.cur.maxVals.getD i 0) ∧
    min (b1.minVals.getD i 0) (s.cur.minVals.getD i 0) ≤
      (rdmpStoredMin (rdmpUpdate s b1)).getD i 0 ∧
    (rdmpCheck s c d e).2 = s := by
  refine ⟨rfl, ?_, ?_, rfl⟩
  · simpa [rdmpStoredMax, rdmpUpdate] using
      getD_zipWith_max_le b1.maxVals s.cur.maxVals i
  · simpa [rdmpStoredMin, rdmpUpdate] using
      min_le_getD_zipWith b1.minVals s.cur.minVals i

/-- C5: packed ghost data is always in the Subcell/FD cell-average
representation, tagged with the sender's refinement level and active-grid
state; a sender in `Dg` mode first projects to subcell averages before
slicing the halo, so raw DG nodal data is never sent. -/
theorem pack_ghost_always_subcell_rep (M w : ℕ) (e : ElementData) :
    (packGhostData M w e).rep = GhostRep.SubcellAvg ∧
    (packGhostData M w e).senderGrid = e.grid ∧
    (packGhostData M w e).level = e.level ∧
    (e.grid = ActiveGrid.Dg →
      (packGhostData M w e).halo =
        sliceHalo w (project_to_subcell e.dgField M)) := by
  refine ⟨rfl, rfl, rfl, ?_⟩
  intro h
  simp [packGhostData, elementSubcellView, h]

/-- Witness for C5 at a concrete `Dg`-mode sender. -/
theorem pack_ghost_always_subcell_rep_witness :
    (packGhostData 3 1 ⟨ActiveGrid.Dg, 0, [1, 2], []⟩).halo =
      sliceHalo 1 (project_to_subcell [1, 2] 3) :=
  (pack_ghost_always_subcell_rep 3 1 ⟨ActiveGrid.Dg, 0, [1, 2], []⟩).2.2.2 rfl

/-- C6: unpacking ghost data whose metadata is inconsistent with the
receiver's view of the neighbor topology is a fatal configuration error,
never a silent correction; consistent data from a neighbor at a
different refinement level is interpolated/restricted during unpack, so
the stored halo is at the receiver's resolution. -/
theorem unpack_ghost_validates_and_resamples (nbr : NeighborInfo)
    (myLevel w : ℕ) (g : IncomingGhost) :
    (¬ (g.level = nbr.level ∧ g.orientFlipped = nbr.orientFlipped) →
      unpackGhostData nbr myLevel w g =
        .error "ghost metadata inconsistent with neighbor topology") ∧
    (g.level = nbr.level → g.orientFlipped = nbr.orientFlipped →
      g.level ≠ myLevel →
      ∃ h, unpackGhostData nbr myLevel w g = .ok h ∧ h.length = w) := by
  constructor
  · intro hmis
    simp only [unpackGhostData, if_neg hmis]
  · intro h1 h2 hne
    have hne' : ¬ nbr.level = myLevel := h1 ▸ hne
    refine ⟨resampleGhost w g.data, ?_, ?_⟩
    · simp [unpackGhostData, h1, h2, hne']
    · simp [resampleGhost]

/-- Witness for C6: a mismatched level is fatal; a consistent coarser
neighbor's buffer is resampled to the receiver's halo width. -/
theorem unpack_ghost_validates_and_resamples_witness :
    unpackGhostData ⟨2, false⟩ 5 3 ⟨1, false, [7]⟩ =
      .error "ghost metadata inconsistent with neighbor topology" ∧
    ∃ h, unpackGhostData ⟨2, false⟩ 5 3 ⟨2, false, [7, 8]⟩ = .ok h ∧
      h.length = 3 :=
  ⟨(unpack_ghost_validates_and_resamples ⟨2, false⟩ 5 3 ⟨1, false, [7]⟩).1
      (by decide),
    (unpack_ghost_validates_and_resamples ⟨2, false⟩ 5 3 ⟨2, false, [7, 8]⟩).2
      rfl rfl (by decide)⟩

theorem scalePoly_scalePoly (c d : ℚ) (p : List ℚ) :
    scalePoly c (scalePoly d p) = scalePoly (c * d) p := by
  simp [scalePoly, List.map_map, Function.comp, mul_assoc]

theorem addPoly_scalePoly (c : ℚ) (p q : List ℚ) :
    addPoly (scalePoly c p) (scalePoly c q) = scalePoly c (addPoly p q) := by
  induction p generalizing q with
  | nil => simp [scalePoly, addPoly]
  | cons a p ih =>
    cases q with
    | nil => simp [scalePoly, addPoly]
    | cons b q =>
      simp only [scalePoly, List.map_cons, addPoly, mul_add]
      exact congrArg _ (ih q)

theorem interpAux_smul (c : ℚ) (pts : List (ℚ × ℚ)) : ∀ done : List ℚ,
    interpAux done (pts.map (fun p => (p.1, c * p.2))) =
      scalePoly c (interpAux done pts) := by
  induction pts with
  | nil => intro done; simp [interpAux, scalePoly]
  | cons q rest ih =>
    intro done
    obtain ⟨x, y⟩ := q
    simp only [List.map_cons, interpAux]
    rw [ih (done ++ [x]), ← addPoly_scalePoly]
    congr 1
    have hfst : (rest.map (fun p => (p.1, c * p.2))).map Prod.fst =
        rest.map Prod.fst := by
      simp [List.map_map, Function.comp]
    rw [hfst, scalePoly_scalePoly, mul_div_assoc]

theorem interpPoly_smul (c : ℚ) (pts : List (ℚ × ℚ)) :
    interpPoly (pts.map (fun p => (p.1, c * p.2))) =
      scalePoly c (interpPoly pts) :=
  interpAux_smul c pts []

theorem toModal_smul (c : ℚ) (u : List ℚ) :
    toModal (u.map (fun a => c * a)) = scalePoly c (toModal u) := by
  unfold toModal
  rw [List.length_map]
  have hpts : (List.range u.length).map
      (fun k : ℕ => ((k : ℚ) / ((u.length - 1 : ℕ) : ℚ),
        (u.map (fun a => c * a)).getD k 0)) =
      ((List.range u.length).map
      (fun k : ℕ => ((k : ℚ) / ((u.length - 1 : ℕ) : ℚ), u.getD k 0))).map
      (fun p => (p.1, c * p.2)) := by
    rw [List.map_map]
    apply List.map_congr_left
    intro k hk
    have hklt : k < u.length := List.mem_range.mp hk
    have hgd : (u.map (fun a => c * a)).getD k 0 = c * u.getD k 0 := by
      rw [List.getD_eq_getElem?_getD, List.getD_eq_getElem?_getD,
        List.getElem?_map]
      cases h : u[k]? with
      | none => simp
      | some a => simp
    simp only [Function.comp_apply]
    exact congrArg (Prod.mk _) hgd
  rw [hpts, interpPoly_smul]

theorem energyOf_smul (c : ℚ) (m : List ℚ) :
    energyOf (scalePoly c m) = c ^ 2 * energyOf m := by
  induction m with
  | nil => simp [energyOf, scalePoly]
  | cons a m ih =>
    have h1 : energyOf (scalePoly c (a :: m)) =
        (c * a) ^ 2 + energyOf (scalePoly c m) := by
      simp [energyOf, scalePoly]
    have h2 : energyOf (a :: m) = a ^ 2 + energyOf m := by
      simp [energyOf]
    rw [h1, h2, ih]
    ring

/-- C7: the Persson indicator's troubled/not-troubled decision is
invariant under uniform positive scaling of the field. -/
theorem persson_scale_invariant (threshold : ℚ) (nh : ℕ) (u : List ℚ)
    (c : ℚ) (hc : 0 < c) :
    perssonTci threshold nh (u.map (fun a => c * a)) =
      perssonTci threshold nh u := by
  simp only [perssonTci]
  rw [toModal_smul]
  have hlen : (scalePoly c (toModal u)).length = (toModal u).length :=
    List.length_map _ _
  rw [hlen]
  have hdrop : (scalePoly c (toModal u)).drop ((toModal u).length - nh) =
      scalePoly c ((toModal u).drop ((toModal u).length - nh)) := by
    simp [scalePoly, List.map_drop]
  rw [hdrop, energyOf_smul, energyOf_smul]
  have hc2 : (0 : ℚ) < c ^ 2 := by positivity
  rw [show threshold * (c ^ 2 * energyOf (toModal u)) =
    c ^ 2 * (threshold * energyOf (toModal u)) by ring]
  exact decide_eq_decide.mpr (mul_lt_mul_left hc2)

/-- Witness for C7 at a concrete field and scale factor 2. -/
theorem persson_scale_invariant_witness :
    perssonTci (1 / 2) 1 ([1, 2].map (fun a => (2 : ℚ) * a)) =
      perssonTci (1 / 2) 1 [1, 2] :=
  persson_scale_invariant (1 / 2) 1 [1, 2] 2 (by decide)

/-- C3: the combined troubled-cell indicator never throws — it returns a
verdict for every input — and any non-finite monitored value makes it
conservatively report troubled. -/
theorem tci_total_and_nonfinite_troubled (threshold : ℚ) (nh : ℕ)
    (s : RdmpTciData) (candidate : RdmpBounds) (delta0 epsilon : ℚ)
    (data : List FpVal) :
    (∃ b, troubledCellIndicator threshold nh s candidate delta0 epsilon
      data = .ok b) ∧
    (data.any (fun v => ! v.isFiniteVal) = true →
      troubledCellIndicator threshold nh s candidate delta0 epsilon
        data = .ok true) := by
  constructor
  · by_cases h : data.any (fun v => ! v.isFiniteVal) = true
    · exact ⟨true, by simp [troubledCellIndicator, h]⟩
    · exact ⟨perssonTci threshold nh (data.map FpVal.toRat) ||
        ! (rdmpCheck s candidate delta0 epsilon).1,
        by simp [troubledCellIndicator, h]⟩
  · intro h
    simp [troubledCellIndicator, h]

/-- Witness for C3: a NaN input reports troubled. -/
theorem tci_total_and_nonfinite_troubled_witness :
    troubledCellIndicator 1 1 ⟨⟨[], []⟩, ⟨[], []⟩⟩ ⟨[], []⟩ 0 0
      [FpVal.nan] = .ok true :=
  (tci_total_and_nonfinite_troubled 1 1 ⟨⟨[], []⟩, ⟨[], []⟩⟩ ⟨[], []⟩ 0 0
    [FpVal.nan]).2 (by decide)

theorem evalPoly_nil (x : ℚ) : evalPoly [] x = 0 := rfl

theorem evalPoly_cons (c : ℚ) (p : List ℚ) (x : ℚ) :
    evalPoly (c :: p) x = c + x * evalPoly p x := rfl

theorem evalPoly_addPoly (p q : List ℚ) (x : ℚ) :
    evalPoly (addPoly p q) x = evalPoly p x + evalPoly q x := by
  induction p generalizing q with
  | nil => simp [addPoly, evalPoly_nil]
  | cons a p ih =>
    cases q with
    | nil => simp [addPoly, evalPoly_nil]
    | cons b q =>
      simp only [addPoly, evalPoly_cons, ih]
      ring

theorem evalPoly_scalePoly (c : ℚ) (p : List ℚ) (x : ℚ) :
    evalPoly (scalePoly c p) x = c * evalPoly p x := by
  induction p with
  | nil => simp [scalePoly, evalPoly_nil]
  | cons a p ih =>
    simp only [scalePoly, List.map_cons, evalPoly_cons] at ih ⊢
    rw [ih]
    ring

theorem evalPoly_mulPoly (p q : List ℚ) (x : ℚ) :
    evalPoly (mulPoly p q) x = evalPoly p x * evalPoly q x := by
  induction p with
  | nil => simp [mulPoly, evalPoly_nil]
  | cons a p ih =>
    simp only [mulPoly, evalPoly_addPoly, evalPoly_scalePoly, evalPoly_cons,
      ih]
    ring

theorem evalPoly_lagNum (others : List ℚ) (x : ℚ) :
    evalPoly (lagNum others) x = lagDen x others := by
  induction others with
  | nil => simp [lagNum, lagDen, evalPoly]
  | cons xj rest ih =>
    show evalPoly (mulPoly [-xj, 1] (lagNum rest)) x = lagDen x (xj :: rest)
    rw [evalPoly_mulPoly, ih]
    have h1 : evalPoly [-xj, 1] x = x - xj := by
      simp [evalPoly]
      ring
    rw [h1]
    simp [lagDen]

theorem lagDen_ne_zero {x : ℚ} {others : List ℚ} (hx : x ∉ others) :
    lagDen x others ≠ 0 := by
  unfold lagDen
  apply List.prod_ne_zero
  intro h0
  obtain ⟨xj, hxj, heq⟩ := List.mem_map.mp h0
  exact hx (by rwa [show xj = x by linarith [sub_eq_zero.mp heq]] at hxj)

theorem lagDen_eq_zero {z : ℚ} {others : List ℚ} (hz : z ∈ others) :
    lagDen z others = 0 := by
  unfold lagDen
  apply List.prod_eq_zero
  exact List.mem_map.mpr ⟨z, hz, sub_self z⟩

/-- The interpolation worker hits each remaining value at its node and
vanishes at every already-consumed node, provided all nodes are
distinct. -/
theorem interpAux_eval (pts : List (ℚ × ℚ)) : ∀ done : List ℚ,
    (done ++ pts.map Prod.fst).Nodup →
    (∀ p ∈ pts, evalPoly (interpAux done pts) p.1 = p.2) ∧
    (∀ z ∈ done, evalPoly (interpAux done pts) z = 0) := by
  induction pts with
  | nil =>
    intro done _
    exact ⟨fun p hp => absurd hp (List.not_mem_nil p),
      fun z _ => by simp [interpAux, evalPoly_nil]⟩
  | cons q rest ih =>
    intro done hnd
    obtain ⟨x, y⟩ := q
    have hnd1 : ((done ++ [x]) ++ rest.map Prod.fst).Nodup := by
      rw [List.append_assoc, List.singleton_append]
      exact hnd
    have hparts := List.nodup_append.mp hnd
    have hx_done : x ∉ done := fun hmem =>
      hparts.2.2 hmem (List.mem_cons_self x _)
    have hx_rest : x ∉ rest.map Prod.fst :=
      (List.nodup_cons.mp hparts.2.1).1
    obtain ⟨ihEval, ihZero⟩ := ih (done ++ [x]) hnd1
    have hx_oth : x ∉ done ++ rest.map Prod.fst := by
      intro hmem
      rcases List.mem_append.mp hmem with h | h
      · exact hx_done h
      · exact hx_rest h
    constructor
    · intro p hp
      rcases List.mem_cons.mp hp with heq | hp'
      · subst heq
        simp only [interpAux]
        rw [evalPoly_addPoly, evalPoly_scalePoly, evalPoly_lagNum]
        rw [ihZero x (List.mem_append_right done (List.mem_singleton.mpr rfl))]
        rw [div_mul_cancel₀ _ (lagDen_ne_zero hx_oth)]
        ring
      · simp only [interpAux]
        rw [evalPoly_addPoly, evalPoly_scalePoly, evalPoly_lagNum]
        have hz : p.1 ∈ done ++ rest.map Prod.fst :=
          List.mem_append_right done (List.mem_map_of_mem Prod.fst hp')
        rw [lagDen_eq_zero hz, mul_zero, zero_add]
        exact ihEval p hp'
    · intro z hz
      simp only [interpAux]
      rw [evalPoly_addPoly, evalPoly_scalePoly, evalPoly_lagNum]
      have hz1 : z ∈ done ++ rest.map Prod.fst := List.mem_append_left _ hz
      rw [lagDen_eq_zero hz1, mul_zero, zero_add]
      exact ihZero z (List.mem_append_left _ hz)

theorem addPoly_length (p q : List ℚ) :
    (addPoly p q).length = max p.length q.length := by
  induction p generalizing q with
  | nil => simp [addPoly]
  | cons a p ih =>
    cases q with
    | nil => simp [addPoly]
    | cons b q =>
      simp only [addPoly, List.length_cons, ih]
      omega

theorem mulPoly_linear_length (a : ℚ) (q : List ℚ) (hq : q ≠ []) :
    (mulPoly [a, 1] q).length = q.length + 1 := by
  have hq1 : 1 ≤ q.length := by
    cases q with
    | nil => exact absurd rfl hq
    | cons b q => simp
  show (addPoly (scalePoly a q)
    ((0 : ℚ) :: addPoly (scalePoly 1 q) ((0 : ℚ) :: mulPoly [] q))).length =
    q.length + 1
  simp only [mulPoly, addPoly_length, List.length_cons, scalePoly,
    List.length_map, List.length_nil]
  omega

theorem lagNum_ne_nil (others : List ℚ) : lagNum others ≠ [] := by
  induction others with
  | nil => simp [lagNum]
  | cons xj rest ih =>
    show mulPoly [-xj, 1] (lagNum rest) ≠ []
    intro h
    have := mulPoly_linear_length (-xj) (lagNum rest) ih
    rw [h] at this
    simp at this

theorem lagNum_length (others : List ℚ) :
    (lagNum others).length = others.length + 1 := by
  induction others with
  | nil => rfl
  | cons xj rest ih =>
    show (mulPoly [-xj, 1] (lagNum rest)).length = rest.length + 1 + 1
    rw [mulPoly_linear_length _ _ (lagNum_ne_nil rest), ih]

theorem interpAux_length (pts : List (ℚ × ℚ)) : ∀ done : List ℚ,
    (interpAux done pts).length ≤ done.length + pts.length := by
  induction pts with
  | nil => intro done; simp [interpAux]
  | cons q rest ih =>
    intro done
    obtain ⟨x, y⟩ := q
    simp only [interpAux, addPoly_length]
    apply max_le
    · simp only [scalePoly, List.length_map, lagNum_length,
        List.length_append, List.length_cons]
      omega
    · have h := ih (done ++ [x])
      have hlen : (done ++ [x]).length = done.length + 1 := by simp
      rw [hlen] at h
      simp only [List.length_cons]
      omega

theorem interpPoly_length (pts : List (ℚ × ℚ)) :
    (interpPoly pts).length ≤ pts.length := by
  have := interpAux_length pts []
  simpa [interpPoly] using this

theorem toPoly_eval (p : List ℚ) (x : ℚ) :
    (toPoly p).eval x = evalPoly p x := by
  induction p with
  | nil => simp [toPoly, evalPoly_nil]
  | cons c rest ih => simp [toPoly, evalPoly_cons, ih]

theorem toPoly_degree_lt (p : List ℚ) :
    (toPoly p).degree < (p.length : ℕ) := by
  induction p with
  | nil =>
    simp only [toPoly, Polynomial.degree_zero, List.length_nil,
      Nat.cast_zero]
    exact WithBot.bot_lt_coe 0
  | cons c rest ih =>
    simp only [toPoly, List.length_cons]
    apply lt_of_le_of_lt (Polynomial.degree_add_le _ _)
    apply max_lt
    · apply lt_of_le_of_lt Polynomial.degree_C_le
      exact_mod_cast WithBot.coe_lt_coe.mpr (Nat.succ_pos rest.length)
    · apply lt_of_le_of_lt (Polynomial.degree_mul_le _ _)
      rw [Polynomial.degree_X]
      rcases eq_or_ne (toPoly rest) 0 with h0 | h0
      · rw [h0, Polynomial.degree_zero]
        exact lt_of_le_of_lt (by simp) (WithBot.bot_lt_coe _)
      · rw [Polynomial.degree_eq_natDegree h0] at ih ⊢
        have hlt : (toPoly rest).natDegree < rest.length := by
          exact_mod_cast ih
        calc (1 : WithBot ℕ) + ((toPoly rest).natDegree : WithBot ℕ)
            = (((toPoly rest).natDegree + 1 : ℕ) : WithBot ℕ) := by
              push_cast
              ring
          _ < ((rest.length + 1 : ℕ) : WithBot ℕ) := by
              exact_mod_cast WithBot.coe_lt_coe.mpr (by omega)

theorem toPoly_derivAux (p : List ℚ) : ∀ j : ℕ,
    toPoly (derivAux j p) =
      Polynomial.derivative (Polynomial.X * toPoly p) +
        Polynomial.C (j : ℚ) * toPoly p := by
  induction p with
  | nil => intro j; simp [derivAux, toPoly]
  | cons c rest ih =>
    intro j
    simp only [derivAux, toPoly, ih (j + 1), Polynomial.derivative_mul,
      Polynomial.derivative_add, Polynomial.derivative_X,
      Polynomial.derivative_C, Polynomial.C_add, Polynomial.C_mul,
      Polynomial.C_1, Nat.cast_add, Nat.cast_one]
    ring

theorem toPoly_derivPoly (p : List ℚ) :
    toPoly (derivPoly p) = Polynomial.derivative (toPoly p) := by
  cases p with
  | nil => simp [derivPoly, toPoly]
  | cons c rest =>
    show toPoly (derivAux 0 rest) = _
    rw [toPoly_derivAux rest 0]
    simp [toPoly]

theorem derivAux_antiderivAux (p : List ℚ) : ∀ j : ℕ,
    derivAux j (antiderivAux j p) = p := by
  induction p with
  | nil => intro j; rfl
  | cons c rest ih =>
    intro j
    simp only [antiderivAux, derivAux, ih (j + 1)]
    congr 1
    have hj : ((j : ℚ) + 1) ≠ 0 := by positivity
    field_simp

theorem derivPoly_antiderivPoly (p : List ℚ) :
    derivPoly (antiderivPoly p) = p := by
  show derivAux 0 (antiderivAux 0 p) = p
  exact derivAux_antiderivAux p 0

theorem antiderivAux_length (p : List ℚ) : ∀ j : ℕ,
    (antiderivAux j p).length = p.length := by
  induction p with
  | nil => intro j; rfl
  | cons c rest ih => intro j; simp [antiderivAux, ih]

theorem evalPoly_antideriv_zero (f : List ℚ) :
    evalPoly (antiderivPoly f) 0 = 0 := by
  simp [antiderivPoly, evalPoly_cons]

/-- The running sums of the projected cell averages recover the
antiderivative of the field at the subcell boundaries. -/
theorem take_project_sum (f : List ℚ) (M k : ℕ) (hk : k ≤ M) (hM : 0 < M) :
    ((project_to_subcell f M).take k).sum / (M : ℚ) =
      evalPoly (antiderivPoly f) ((k : ℚ) / (M : ℚ)) := by
  have hMQ : (M : ℚ) ≠ 0 := Nat.cast_ne_zero.mpr hM.ne'
  unfold project_to_subcell
  rw [← List.map_take, List.take_range, min_eq_left hk, sum_map_range]
  have hteles : ∑ i ∈ Finset.range k, cellAvg f M i =
      (M : ℚ) * (evalPoly (antiderivPoly f) ((k : ℚ) / (M : ℚ)) -
        evalPoly (antiderivPoly f) ((0 : ℚ) / (M : ℚ))) := by
    unfold cellAvg
    rw [← Finset.mul_sum]
    congr 1
    have h := Finset.sum_range_sub
      (fun j : ℕ => evalPoly (antiderivPoly f) ((j : ℚ) / (M : ℚ))) k
    simpa using h
  rw [hteles, show ((0 : ℚ) / (M : ℚ)) = 0 from zero_div _,
    evalPoly_antideriv_zero, sub_zero]
  exact mul_div_cancel_left₀ _ hMQ

/-- Interpolation through distinct nodes at values taken from a
polynomial of bounded length recovers that polynomial. -/
theorem interpPoly_recovers (pts : List (ℚ × ℚ)) (G : List ℚ)
    (hnd : (pts.map Prod.fst).Nodup)
    (hdeg : G.length ≤ pts.length)
    (hvals : ∀ p ∈ pts, p.2 = evalPoly G p.1) :
    toPoly (interpPoly pts) = toPoly G := by
  obtain ⟨hEval, -⟩ := interpAux_eval pts [] (by simpa using hnd)
  have hcard : (pts.map Prod.fst).toFinset.card = pts.length := by
    rw [List.toFinset_card_of_nodup hnd, List.length_map]
  apply Polynomial.eq_of_degrees_lt_of_eval_finset_eq
    ((pts.map Prod.fst).toFinset)
  · rw [hcard]
    exact lt_of_lt_of_le (toPoly_degree_lt _)
      (by exact_mod_cast interpPoly_length pts)
  · rw [hcard]
    exact lt_of_lt_of_le (toPoly_degree_lt _) (by exact_mod_cast hdeg)
  · intro z hz
    rw [List.mem_toFinset] at hz
    obtain ⟨p, hp, hpz⟩ := List.mem_map.mp hz
    rw [toPoly_eval, toPoly_eval, ← hpz]
    have h1 : evalPoly (interpPoly pts) p.1 = p.2 := hEval p hp
    rw [h1]
    exact hvals p hp

theorem project_length (f : List ℚ) (M : ℕ) :
    (project_to_subcell f M).length = M := by
  simp [project_to_subcell]

/-- C1: for a field representable exactly in the DG basis (polynomial of
degree below the mesh size `N`), projecting to a subcell grid with at
least as many cells and reconstructing back to DG recovers the field
exactly. -/
theorem reconstruct_project_round_trip (f : List ℚ) (N M : ℕ)
    (hf : f.length ≤ N) (hN : 0 < N) (hNM : N ≤ M) (x : ℚ) :
    evalPoly (reconstruct_to_dg N (project_to_subcell f M)) x =
      evalPoly f x := by
  have hM : 0 < M := lt_of_lt_of_le hN hNM
  have hMQ : (M : ℚ) ≠ 0 := Nat.cast_ne_zero.mpr hM.ne'
  have hinj : Function.Injective (fun k : ℕ => (k : ℚ) / (M : ℚ)) := by
    intro a b hab
    simp only at hab
    field_simp at hab
    exact_mod_cast hab
  have hrecover : toPoly (interpPoly ((List.range (N + 1)).map
      (fun k : ℕ => ((k : ℚ) / (M : ℚ),
        ((project_to_subcell f M).take k).sum / (M : ℚ))))) =
      toPoly (antiderivPoly f) := by
    apply interpPoly_recovers
    · rw [List.map_map]
      exact (List.nodup_range (N + 1)).map hinj
    · rw [List.length_map, List.length_range]
      have hlen2 : (antiderivPoly f).length = f.length + 1 := by
        simp [antiderivPoly, antiderivAux_length]
      omega
    · intro p hp
      obtain ⟨k, hk, rfl⟩ := List.mem_map.mp hp
      have hkM : k ≤ M := by
        have := List.mem_range.mp hk
        omega
      exact take_project_sum f M k hkM hM
  have hrec : reconstruct_to_dg N (project_to_subcell f M) =
      derivPoly (interpPoly ((List.range (N + 1)).map
        (fun k : ℕ => ((k : ℚ) / (M : ℚ),
          ((project_to_subcell f M).take k).sum / (M : ℚ))))) := by
    simp only [reconstruct_to_dg, project_length]
  rw [hrec, ← toPoly_eval, toPoly_derivPoly, hrecover, ← toPoly_derivPoly,
    derivPoly_antiderivPoly, toPoly_eval]

/-- Witness for C1: a linear field on a 2-point DG mesh with a 3-cell
subcell grid round-trips, checked at a sample point. -/
theorem reconstruct_project_round_trip_witness :
    evalPoly (reconstruct_to_dg 2 (project_to_subcell [1, 2] 3)) 5 =
      evalPoly [1, 2] 5 :=
  reconstruct_project_round_trip [1, 2] 2 3 (by decide) (by decide)
    (by decide) 5
